import Mathlib

/-!
Shallow embedding of the `hex-sim` account-pooling simulator (`pool.rs`,
`sim.rs`, `data.rs`) and proofs about its pooling strategies.

Monetary amounts (`f64` in the source, never NaN by construction of
`F64AsKey`) are modelled as rationals.  The source's `HashMap`s are modelled
as association lists carrying one fixed enumeration order; the source's
`BinaryHeap` of `Reverse<F64AsKey>` is modelled as a list of balances from
which `pop` removes a minimal element.  Code that can panic (the unguarded
`accounts[current]` indexing in `SinglePool::withdraw_all`) returns `Option`.
-/

namespace HexSim

/-- Shop identifier (`pub type ShopId = usize` in `data.rs`). -/
abbrev ShopId := Nat

/-- A transaction (`data.rs`): an amount and the owning shop. -/
structure Transaction where
  amount : ℚ
  shop_id : ShopId
  deriving DecidableEq

/-! ### PoolPerShop (`pool.rs`, lines 37-82) -/

/-- One step of the grouping loop in `PoolPerShop::process_transactions`:
`txs_per_shop.entry(shop_id).or_default().push(amount)`. -/
def addTx : List (ShopId × List ℚ) → ShopId → ℚ → List (ShopId × List ℚ)
  | [], shop, a => [(shop, [a])]
  | (k, l) :: rest, shop, a =>
    if k = shop then (k, l ++ [a]) :: rest
    else (k, l) :: addTx rest shop a

/-- Group a batch by shop, preserving per-shop arrival order. -/
def groupByShop (txs : List Transaction) : List (ShopId × List ℚ) :=
  txs.foldl (fun acc t => addTx acc t.shop_id t.amount) []

/-- `pool.resize(txs.len(), 0.0)` when the pool is shorter than the batch. -/
def padTo (pool : List ℚ) (n : Nat) : List ℚ :=
  if pool.length < n then pool ++ List.replicate (n - pool.length) 0 else pool

/-- `for (account, amount) in pool.iter_mut().zip(txs) { *account += amount }` -/
def zipAdd : List ℚ → List ℚ → List ℚ
  | pool, [] => pool
  | [], _ :: _ => []
  | p :: ps, t :: ts => (p + t) :: zipAdd ps ts

/-- Apply one shop's batched amounts to its account list: resize, then
add the i-th amount to the i-th account (`PoolPerShop::process_transactions`). -/
def applyTxs (pool : List ℚ) (txs : List ℚ) : List ℚ :=
  zipAdd (padTo pool txs.length) txs

/-- `self.pools.entry(shop_id).or_default()` followed by the resize/add loop. -/
def setPool : List (ShopId × List ℚ) → ShopId → List ℚ → List (ShopId × List ℚ)
  | [], shop, txs => [(shop, applyTxs [] txs)]
  | (k, l) :: rest, shop, txs =>
    if k = shop then (k, applyTxs l txs) :: rest
    else (k, l) :: setPool rest shop txs

/-- `PoolPerShop` (pool.rs): an independent growable account list per shop.
The association list stands for the `HashMap` in one enumeration order. -/
structure PoolPerShop where
  pools : List (ShopId × List ℚ)
  deriving DecidableEq

/-- `PoolPerShop::process_transactions`: group the batch by shop, then apply
each shop's amounts to that shop's accounts. -/
def PoolPerShop.process_transactions (s : PoolPerShop)
    (txs : List Transaction) : PoolPerShop :=
  ⟨(groupByShop txs).foldl (fun pools p => setPool pools p.1 p.2) s.pools⟩

/-- `PoolPerShop::total_accounts`: sum of the per-shop account counts. -/
def PoolPerShop.total_accounts (s : PoolPerShop) : Nat :=
  (s.pools.map fun p => p.2.length).sum

/-- `PoolPerShop::withdraw_all`: `pool.fill(0.0)` for every shop, then report
`self.total_accounts()`. -/
def PoolPerShop.withdraw_all (s : PoolPerShop) : Nat × PoolPerShop :=
  let filled : PoolPerShop :=
    ⟨s.pools.map fun p => (p.1, p.2.map fun _ => (0 : ℚ))⟩
  (filled.total_accounts, filled)

/-- Number of accounts currently holding a non-zero balance.  Not a source
function; used to state claims about settlement counts. -/
def PoolPerShop.nonzero_accounts (s : PoolPerShop) : Nat :=
  (s.pools.map fun p => p.2.countP fun a => decide (a ≠ 0)).sum

/-- Accounts of one shop: first matching entry, `[]` when absent
(`HashMap` lookup with the `or_default` view). -/
def lookupPool : List (ShopId × List ℚ) → ShopId → List ℚ
  | [], _ => []
  | (k, l) :: rest, shop => if k = shop then l else lookupPool rest shop

/-! ### SinglePool (`pool.rs`, lines 84-155) -/

/-- Remove one minimal element from the non-empty list `a :: rest`,
returning it and the remaining elements. -/
def popMin1 : ℚ → List ℚ → ℚ × List ℚ
  | a, [] => (a, [])
  | a, b :: rest =>
    if a ≤ (popMin1 b rest).1 then (a, b :: rest)
    else ((popMin1 b rest).1, a :: (popMin1 b rest).2)

/-- `BinaryHeap::pop` on the min-heap of `Reverse<F64AsKey>`: remove one
minimal balance, returning it and the remaining accounts. -/
def popMin : List ℚ → Option (ℚ × List ℚ)
  | [] => none
  | a :: rest => some (popMin1 a rest)

/-- `self.shop_balances.entry(shop_id).or_default()` then `*balance += amount`. -/
def addShopBalance : List (ShopId × ℚ) → ShopId → ℚ → List (ShopId × ℚ)
  | [], shop, amount => [(shop, 0 + amount)]
  | (k, b) :: rest, shop, amount =>
    if k = shop then (k, b + amount) :: rest
    else (k, b) :: addShopBalance rest shop amount

/-- `SinglePool` (pool.rs): one global min-heap of accounts plus the per-shop
running balances, each in one fixed enumeration order. -/
structure SinglePool where
  pool : List ℚ
  shop_balances : List (ShopId × ℚ)
  deriving DecidableEq

/-- The loop of `SinglePool::process_transactions`: per transaction, update
the shop's running balance, pop the smallest account (`unwrap_or_default`,
i.e. balance `0.0`, when the heap is empty) and stash `amount + account` in
`updated_accounts`; the stash is appended to the heap only after the whole
batch (`self.pool.extend(updated_accounts)`). -/
def processGo : List (ShopId × ℚ) → List ℚ → List ℚ → List Transaction →
    SinglePool
  | balances, pool, updated, [] => ⟨pool ++ updated, balances⟩
  | balances, [], updated, t :: rest =>
    processGo (addShopBalance balances t.shop_id t.amount) []
      (updated ++ [t.amount + 0]) rest
  | balances, a :: pool, updated, t :: rest =>
    processGo (addShopBalance balances t.shop_id t.amount) (popMin1 a pool).2
      (updated ++ [t.amount + (popMin1 a pool).1]) rest

/-- `SinglePool::process_transactions`. -/
def SinglePool.process_transactions (s : SinglePool)
    (txs : List Transaction) : SinglePool :=
  processGo s.shop_balances s.pool [] txs

/-- `SinglePool::total_accounts`. -/
def SinglePool.total_accounts (s : SinglePool) : Nat := s.pool.length

/-- `SinglePool::reset`: replace every account by `0.0`, clear the balances. -/
def SinglePool.reset (s : SinglePool) : SinglePool :=
  ⟨s.pool.map fun _ => (0 : ℚ), []⟩

/-- Direct transcription of the `while *balance > 0.0` loop of
`SinglePool::withdraw_all` for one shop, acting on the account suffix that
starts at `current`; one unit of fuel per loop iteration, `none` when the
fuel runs out.  Returns the settlement-transaction count and the final
suffix; the suffix `[]` is the state in which the `break 'outer` on
exhausted accounts fires. -/
def drainShopFuel : Nat → ℚ → List ℚ → Option (Nat × List ℚ)
  | 0, _, _ => none
  | _ + 1, _, [] => some (0, [])
  | n + 1, b, a :: rest =>
    if b ≤ 0 then some (0, a :: rest)
    else if a = 0 then drainShopFuel n b rest
    else
      (drainShopFuel n (b - min b a) ((a - min b a) :: rest)).map
        fun p => (p.1 + 1, p.2)

/-- Termination measure for the drain loop: each iteration either skips an
exhausted account or zeroes one side of the `min` transfer. -/
def drainMeasure (b : ℚ) (accs : List ℚ) : Nat :=
  2 * accs.countP (fun a => decide (a ≠ 0)) + accs.length +
    (if 0 < b then 1 else 0)

/-- One shop's drain, run with provably sufficient fuel. -/
def drainShop (b : ℚ) (accs : List ℚ) : Nat × List ℚ :=
  (drainShopFuel (drainMeasure b accs + 1) b accs).getD (0, [])

/-- The `'outer: for (_, balance) in &mut self.shop_balances` loop of
`SinglePool::withdraw_all`: drain each shop in enumeration order, each from
the account suffix the previous drain left. -/
def withdrawLoop : List ℚ → List ℚ → Nat
  | [], _ => 0
  | b :: shops, accs =>
    (drainShop b accs).1 + withdrawLoop shops (drainShop b accs).2

/-- `withdrawLoop` with one explicit fuel bound shared by every drain; used
to state that the source loop terminates. -/
def withdrawAllFuel (n : Nat) : List ℚ → List ℚ → Option Nat
  | [], _ => some 0
  | b :: shops, accs =>
    (drainShopFuel n b accs).bind fun p =>
      (withdrawAllFuel n shops p.2).map fun k => p.1 + k

/-- `SinglePool::withdraw_all`.  The loop body reads `accounts[current]`
before any bounds check, so an empty pool together with some positive shop
balance is an out-of-bounds panic, modelled as `none`; in every other case
the `current == accounts.len()` check fires first.  Otherwise: run the
greedy drain over the shop balances in enumeration order, then `reset`. -/
def SinglePool.withdraw_all (s : SinglePool) : Option (Nat × SinglePool) :=
  if s.pool = [] ∧ s.shop_balances.any (fun p => decide (0 < p.2)) then none
  else some (withdrawLoop (s.shop_balances.map Prod.snd) s.pool, s.reset)

/-! ### SinglePoolWithSingleAccount (`pool.rs`, lines 157-187) -/

/-- `SinglePoolWithSingleAccount` (pool.rs): delegates ingestion to an inner
`SinglePool`. -/
structure SinglePoolWithSingleAccount where
  inner : SinglePool
  deriving DecidableEq

/-- Delegated `process_transactions`. -/
def SinglePoolWithSingleAccount.process_transactions
    (s : SinglePoolWithSingleAccount) (txs : List Transaction) :
    SinglePoolWithSingleAccount :=
  ⟨s.inner.process_transactions txs⟩

/-- Delegated `total_accounts`. -/
def SinglePoolWithSingleAccount.total_accounts
    (s : SinglePoolWithSingleAccount) : Nat :=
  s.inner.total_accounts

/-- `SinglePoolWithSingleAccount::withdraw_all`: one settlement per account
plus one per `shop_balances` entry, then the inner reset. -/
def SinglePoolWithSingleAccount.withdraw_all
    (s : SinglePoolWithSingleAccount) : Nat × SinglePoolWithSingleAccount :=
  (s.inner.total_accounts + s.inner.shop_balances.length, ⟨s.inner.reset⟩)

/-! ### Annual multiplier generation (`sim.rs`, `AnnualData::gen`) -/

/-- Update one entry of a list: the in-place `daily_multipliers[i] *= ...`. -/
def listModify (f : Nat → Nat) : List Nat → Nat → List Nat
  | [], _ => []
  | x :: rest, 0 => f x :: rest
  | x :: rest, n + 1 => x :: listModify f rest n

/-- The sale-day loop of `AnnualData::gen` (sim.rs): starting from the copied
base table, for each raw random draw `r` multiply the multiplier of day
`r % DAYS_IN_YEAR` by `sale_multiplier` (effects compound on repeats). -/
def applySaleDays (saleMultiplier : Nat) : List Nat → List Nat → List Nat
  | mults, [] => mults
  | mults, r :: draws =>
    applySaleDays saleMultiplier
      (listModify (fun x => x * saleMultiplier) mults (r % 365)) draws

/-! ### Reachability through the `AccountsPool` API -/

/-- `SinglePool` states reachable from `SinglePool::new()` through
`process_transactions` with positive amounts and `withdraw_all`. -/
inductive SinglePool.Reachable : SinglePool → Prop
  | empty : SinglePool.Reachable ⟨[], []⟩
  | process {s : SinglePool} {txs : List Transaction} :
      SinglePool.Reachable s → (∀ t ∈ txs, 0 < t.amount) →
      SinglePool.Reachable (s.process_transactions txs)
  | withdraw {s : SinglePool} {r : Nat × SinglePool} :
      SinglePool.Reachable s → s.withdraw_all = some r →
      SinglePool.Reachable r.2

/-- `SinglePoolWithSingleAccount` states reachable from `new()` through
`process_transactions` with positive amounts and `withdraw_all`. -/
inductive SinglePoolWithSingleAccount.Reachable :
    SinglePoolWithSingleAccount → Prop
  | empty : SinglePoolWithSingleAccount.Reachable ⟨⟨[], []⟩⟩
  | process {s : SinglePoolWithSingleAccount} {txs : List Transaction} :
      SinglePoolWithSingleAccount.Reachable s → (∀ t ∈ txs, 0 < t.amount) →
      SinglePoolWithSingleAccount.Reachable (s.process_transactions txs)
  | withdraw {s : SinglePoolWithSingleAccount} :
      SinglePoolWithSingleAccount.Reachable s →
      SinglePoolWithSingleAccount.Reachable s.withdraw_all.2

/-- Modelled from the claim's words (C3): a sequential reading of
`SinglePool::process_transactions` in which each updated account is pushed
back into the queue before the next transaction is handled, so that a later
transaction in the same batch can land on an account already updated by an
earlier one.  Compared below with the source-faithful
`SinglePool.process_transactions`. -/
def SinglePool.process_transactions_seq (s : SinglePool)
    (txs : List Transaction) : SinglePool :=
  txs.foldl
    (fun st t =>
      match st.pool with
      | [] => ⟨[t.amount + 0],
          addShopBalance st.shop_balances t.shop_id t.amount⟩
      | a :: rest => ⟨(popMin1 a rest).2 ++ [t.amount + (popMin1 a rest).1],
          addShopBalance st.shop_balances t.shop_id t.amount⟩)
    s

/-! ### Aggregated quantities -/

/-- Total of all account balances in the single pool. -/
def SinglePool.pool_total (s : SinglePool) : ℚ := s.pool.sum

/-- Total of the per-shop running balances. -/
def SinglePool.shops_total (s : SinglePool) : ℚ :=
  (s.shop_balances.map Prod.snd).sum

/-- Total amount of a batch of transactions. -/
def txsTotal (txs : List Transaction) : ℚ :=
  (txs.map Transaction.amount).sum

lemma txsTotal_nil : txsTotal [] = 0 := rfl

lemma txsTotal_cons (t : Transaction) (txs : List Transaction) :
    txsTotal (t :: txs) = t.amount + txsTotal txs := by
  simp [txsTotal]

/-! ### Lemmas on `popMin1` -/

lemma popMin1_sum (rest : List ℚ) : ∀ a : ℚ,
    (popMin1 a rest).1 + (popMin1 a rest).2.sum = a + rest.sum := by
  induction rest with
  | nil => intro a; simp [popMin1]
  | cons b rest ih =>
    intro a
    rw [popMin1]
    split
    · simp
    · have := ih b
      simp only [List.sum_cons] at this ⊢
      linarith

lemma popMin1_length (rest : List ℚ) : ∀ a : ℚ,
    (popMin1 a rest).2.length = rest.length := by
  induction rest with
  | nil => intro a; simp [popMin1]
  | cons b rest ih =>
    intro a
    rw [popMin1]
    split
    · simp
    · have := ih b
      simp only [List.length_cons] at this ⊢
      omega

/-! ### Lemmas on `addShopBalance` -/

lemma addShopBalance_sum (bs : List (ShopId × ℚ)) (shop : ShopId) (amt : ℚ) :
    ((addShopBalance bs shop amt).map Prod.snd).sum
      = (bs.map Prod.snd).sum + amt := by
  induction bs with
  | nil => simp [addShopBalance]
  | cons kb rest ih =>
    obtain ⟨k, b⟩ := kb
    rw [addShopBalance]
    split
    · simp; ring
    · simp only [List.map_cons, List.sum_cons, ih]; ring

lemma addShopBalance_ne_nil (bs : List (ShopId × ℚ)) (shop : ShopId)
    (amt : ℚ) : addShopBalance bs shop amt ≠ [] := by
  cases bs with
  | nil => simp [addShopBalance]
  | cons kb rest =>
    obtain ⟨k, b⟩ := kb
    rw [addShopBalance]
    split <;> simp

lemma addShopBalance_pos (bs : List (ShopId × ℚ)) (shop : ShopId) (amt : ℚ)
    (h : ∀ p ∈ bs, 0 < p.2) (ha : 0 < amt) :
    ∀ p ∈ addShopBalance bs shop amt, 0 < p.2 := by
  induction bs with
  | nil =>
    intro p hp
    simp [addShopBalance] at hp
    rw [hp]
    simpa using ha
  | cons kb rest ih =>
    obtain ⟨k, b⟩ := kb
    rw [addShopBalance]
    split
    · intro p hp
      rcases List.mem_cons.mp hp with h1 | h1
      · rw [h1]
        have := h (k, b) (by simp)
        simp at this ⊢
        linarith
      · exact h p (List.mem_cons_of_mem _ h1)
    · intro p hp
      rcases List.mem_cons.mp hp with h1 | h1
      · rw [h1]; exact h (k, b) (by simp)
      · exact ih (fun q hq => h q (List.mem_cons_of_mem _ hq)) p h1

/-! ### Lemmas on `processGo` -/

lemma processGo_pool_sum (txs : List Transaction) :
    ∀ (balances : List (ShopId × ℚ)) (pool updated : List ℚ),
      (processGo balances pool updated txs).pool.sum
        = pool.sum + updated.sum + txsTotal txs := by
  induction txs with
  | nil =>
    intro balances pool updated
    simp [processGo, txsTotal]
  | cons t rest ih =>
    intro balances pool updated
    cases pool with
    | nil =>
      rw [processGo, ih]
      simp [txsTotal_cons]
      ring
    | cons a pool =>
      rw [processGo, ih]
      have hpop := popMin1_sum pool a
      simp only [txsTotal_cons, List.sum_append, List.sum_cons, List.sum_nil]
      linarith

lemma processGo_balances (txs : List Transaction) :
    ∀ (balances : List (ShopId × ℚ)) (pool updated : List ℚ),
      (processGo balances pool updated txs).shop_balances
        = txs.foldl (fun bs t => addShopBalance bs t.shop_id t.amount)
            balances := by
  induction txs with
  | nil => intro balances pool updated; simp [processGo]
  | cons t rest ih =>
    intro balances pool updated
    cases pool with
    | nil => rw [processGo, ih, List.foldl_cons]
    | cons a pool => rw [processGo, ih, List.foldl_cons]

lemma foldl_addShopBalance_sum (txs : List Transaction) :
    ∀ (balances : List (ShopId × ℚ)),
      ((txs.foldl (fun bs t => addShopBalance bs t.shop_id t.amount)
          balances).map Prod.snd).sum
        = (balances.map Prod.snd).sum + txsTotal txs := by
  induction txs with
  | nil => intro balances; simp [txsTotal]
  | cons t rest ih =>
    intro balances
    simp only [List.foldl_cons, ih, addShopBalance_sum, txsTotal_cons]
    ring

lemma processGo_pool_length_ge (txs : List Transaction) :
    ∀ (balances : List (ShopId × ℚ)) (pool updated : List ℚ),
      updated.length ≤ (processGo balances pool updated txs).pool.length := by
  induction txs with
  | nil =>
    intro balances pool updated
    simp [processGo]
  | cons t rest ih =>
    intro balances pool updated
    cases pool with
    | nil =>
      rw [processGo]
      calc updated.length ≤ (updated ++ [t.amount + 0]).length := by simp
        _ ≤ _ := ih _ _ _
    | cons a pool =>
      rw [processGo]
      calc updated.length
          ≤ (updated ++ [t.amount + (popMin1 a pool).1]).length := by simp
        _ ≤ _ := ih _ _ _

lemma process_pool_ne_nil (s : SinglePool) (t : Transaction)
    (rest : List Transaction) :
    (s.process_transactions (t :: rest)).pool ≠ [] := by
  have h : 1 ≤ (s.process_transactions (t :: rest)).pool.length := by
    rw [SinglePool.process_transactions]
    rcases s.pool with _ | ⟨a, pool⟩
    · rw [processGo]
      calc 1 = ([] ++ [t.amount + 0] : List ℚ).length := by simp
        _ ≤ _ := processGo_pool_length_ge _ _ _ _
    · rw [processGo]
      calc 1 = ([] ++ [t.amount + (popMin1 a pool).1] : List ℚ).length := by
              simp
        _ ≤ _ := processGo_pool_length_ge _ _ _ _
  intro hnil
  rw [hnil] at h
  simp at h

lemma processGo_pos (txs : List Transaction) :
    ∀ (balances : List (ShopId × ℚ)) (pool updated : List ℚ),
      (∀ p ∈ balances, 0 < p.2) → (∀ t ∈ txs, 0 < t.amount) →
      ∀ p ∈ (processGo balances pool updated txs).shop_balances, 0 < p.2 := by
  induction txs with
  | nil =>
    intro balances pool updated hb _
    simpa [processGo] using hb
  | cons t rest ih =>
    intro balances pool updated hb ht
    have hb' := addShopBalance_pos balances t.shop_id t.amount hb
      (ht t (by simp))
    have ht' : ∀ u ∈ rest, 0 < u.amount :=
      fun u hu => ht u (List.mem_cons_of_mem _ hu)
    cases pool with
    | nil => rw [processGo]; exact ih _ _ _ hb' ht'
    | cons a pool => rw [processGo]; exact ih _ _ _ hb' ht'

/-! ### Lemmas on the withdrawal drain loop -/

lemma drainMeasure_skip (b : ℚ) (rest : List ℚ) :
    drainMeasure b rest < drainMeasure b ((0 : ℚ) :: rest) := by
  unfold drainMeasure
  rw [List.countP_cons, List.length_cons]
  norm_num

lemma countP_ne_cons (x : ℚ) (rest : List ℚ) :
    List.countP (fun y => decide (y ≠ 0)) (x :: rest)
      = List.countP (fun y => decide (y ≠ 0)) rest
        + (if x ≠ 0 then 1 else 0) := by
  rw [List.countP_cons]
  by_cases hx : x ≠ 0 <;> simp [hx]

lemma drainMeasure_step (b a : ℚ) (rest : List ℚ) (hb : ¬ b ≤ 0)
    (ha : a ≠ 0) :
    drainMeasure (b - min b a) ((a - min b a) :: rest)
      < drainMeasure b (a :: rest) := by
  have hb' : 0 < b := lt_of_not_le hb
  unfold drainMeasure
  rw [countP_ne_cons, countP_ne_cons, List.length_cons, List.length_cons,
    if_pos ha, if_pos hb']
  rcases le_total b a with h | h
  · rw [min_eq_left h]
    have h2 : (if (0:ℚ) < b - b then (1:ℕ) else 0) = 0 := by
      rw [if_neg]; simp
    rw [h2]
    have h3 : (if a - b ≠ 0 then (1:ℕ) else 0) ≤ 1 := by split <;> omega
    omega
  · rw [min_eq_right h]
    have h4 : (if a - a ≠ 0 then (1:ℕ) else 0) = 0 := by
      rw [if_neg]; simp
    rw [h4]
    have h5 : (if (0:ℚ) < b - a then (1:ℕ) else 0) ≤ 1 := by split <;> omega
    omega

lemma drainShopFuel_isSome (n : Nat) : ∀ (b : ℚ) (accs : List ℚ),
    drainMeasure b accs < n → (drainShopFuel n b accs).isSome = true := by
  induction n with
  | zero => intro b accs h; exact absurd h (by omega)
  | succ n ih =>
    intro b accs h
    cases accs with
    | nil => rw [drainShopFuel]; rfl
    | cons a rest =>
      rw [drainShopFuel]
      by_cases hb : b ≤ 0
      · rw [if_pos hb]; rfl
      · rw [if_neg hb]
        by_cases ha : a = 0
        · rw [if_pos ha]
          subst ha
          have hlt := drainMeasure_skip b rest
          exact ih b rest (by omega)
        · rw [if_neg ha]
          have hlt := drainMeasure_step b a rest hb ha
          have hsome := ih (b - min b a) ((a - min b a) :: rest) (by omega)
          rcases hres : drainShopFuel n (b - min b a) ((a - min b a) :: rest)
            with _ | p
          · rw [hres] at hsome; simp at hsome
          · rfl

lemma drainShopFuel_mono (n : Nat) : ∀ (m : Nat) (b : ℚ) (accs : List ℚ)
    (r : Nat × List ℚ), drainShopFuel n b accs = some r → n ≤ m →
    drainShopFuel m b accs = some r := by
  induction n with
  | zero =>
    intro m b accs r h _
    rw [drainShopFuel] at h
    exact absurd h (by simp)
  | succ n ih =>
    intro m b accs r h hnm
    obtain ⟨m, rfl⟩ : ∃ m', m = m' + 1 := ⟨m - 1, by omega⟩
    cases accs with
    | nil => rw [drainShopFuel] at h ⊢; exact h
    | cons a rest =>
      rw [drainShopFuel] at h ⊢
      by_cases hb : b ≤ 0
      · rw [if_pos hb] at h ⊢; exact h
      · rw [if_neg hb] at h ⊢
        by_cases ha : a = 0
        · rw [if_pos ha] at h ⊢; exact ih m b rest r h (by omega)
        · rw [if_neg ha] at h ⊢
          rcases hres : drainShopFuel n (b - min b a) ((a - min b a) :: rest)
            with _ | p
          · rw [hres] at h; exact absurd h (by simp)
          · rw [hres] at h
            rw [ih m _ _ p hres (by omega)]
            exact h

lemma drainShop_eq_fuel (b : ℚ) (accs : List ℚ) :
    drainShopFuel (drainMeasure b accs + 1) b accs
      = some (drainShop b accs) := by
  have h := drainShopFuel_isSome (drainMeasure b accs + 1) b accs (by omega)
  rcases hres : drainShopFuel (drainMeasure b accs + 1) b accs with _ | r
  · rw [hres] at h; simp at h
  · rw [drainShop, hres]
    rfl

lemma drainShopFuel_eq_drainShop (n : Nat) (b : ℚ) (accs : List ℚ)
    (h : drainMeasure b accs < n) :
    drainShopFuel n b accs = some (drainShop b accs) :=
  drainShopFuel_mono _ n b accs _ (drainShop_eq_fuel b accs) (by omega)

lemma drainShopFuel_sum (n : Nat) : ∀ (b : ℚ) (accs : List ℚ)
    (r : Nat × List ℚ), 0 ≤ b → (∀ a ∈ accs, 0 ≤ a) →
    drainShopFuel n b accs = some r →
    r.2.sum = accs.sum - min b accs.sum := by
  induction n with
  | zero =>
    intro b accs r _ _ h
    rw [drainShopFuel] at h
    exact absurd h (by simp)
  | succ n ih =>
    intro b accs r hb hacc h
    cases accs with
    | nil =>
      rw [drainShopFuel] at h
      cases h
      simp [min_eq_right hb]
    | cons a rest =>
      have hS : 0 ≤ rest.sum :=
        List.sum_nonneg fun x hx => hacc x (List.mem_cons_of_mem _ hx)
      have ha0 : 0 ≤ a := hacc a (by simp)
      rw [drainShopFuel] at h
      by_cases hble : b ≤ 0
      · rw [if_pos hble] at h
        cases h
        have hb0 : b = 0 := le_antisymm hble hb
        subst hb0
        have hsum : 0 ≤ (a :: rest).sum := by
          rw [List.sum_cons]; linarith
        rw [min_eq_left hsum, sub_zero]
      · rw [if_neg hble] at h
        have hb2 : 0 < b := lt_of_not_le hble
        by_cases ha : a = 0
        · rw [if_pos ha] at h
          subst ha
          have := ih b rest r hb
            (fun x hx => hacc x (List.mem_cons_of_mem _ hx)) h
          simpa using this
        · rw [if_neg ha] at h
          rcases hres : drainShopFuel n (b - min b a) ((a - min b a) :: rest)
            with _ | p
          · rw [hres] at h; exact absurd h (by simp)
          · rw [hres] at h
            simp only [Option.map_some'] at h
            cases h
            have hmb : min b a ≤ b := min_le_left _ _
            have hma : min b a ≤ a := min_le_right _ _
            have hb' : 0 ≤ b - min b a := by linarith
            have hacc' : ∀ x ∈ (a - min b a) :: rest, 0 ≤ x := by
              intro x hx
              rcases List.mem_cons.mp hx with h1 | h1
              · subst h1; linarith
              · exact hacc x (List.mem_cons_of_mem _ h1)
            have hIH := ih _ _ p hb' hacc' hres
            simp only [List.sum_cons] at hIH ⊢
            rcases min_cases b a with ⟨h1, h2⟩ | ⟨h1, h2⟩ <;>
              rw [h1] at hIH <;>
              rcases min_cases (b - b) (a - b + rest.sum) with ⟨h3, h4⟩ | ⟨h3, h4⟩ <;>
              rcases min_cases (b - a) (a - a + rest.sum) with ⟨h5, h6⟩ | ⟨h5, h6⟩ <;>
              rcases min_cases b (a + rest.sum) with ⟨h7, h8⟩ | ⟨h7, h8⟩ <;>
              rw [h7] <;>
              first
                | (rw [h3] at hIH; linarith)
                | (rw [h5] at hIH; linarith)

lemma drainShop_sum (b : ℚ) (accs : List ℚ) (hb : 0 ≤ b)
    (hacc : ∀ a ∈ accs, 0 ≤ a) :
    (drainShop b accs).2.sum = accs.sum - min b accs.sum :=
  drainShopFuel_sum _ b accs _ hb hacc (drainShop_eq_fuel b accs)

lemma withdrawAllFuel_mono (shops : List ℚ) : ∀ (accs : List ℚ) (n m k : Nat),
    withdrawAllFuel n shops accs = some k → n ≤ m →
    withdrawAllFuel m shops accs = some k := by
  induction shops with
  | nil => intro accs n m k h _; rw [withdrawAllFuel] at h ⊢; exact h
  | cons b shops ih =>
    intro accs n m k h hnm
    rw [withdrawAllFuel] at h ⊢
    rcases hres : drainShopFuel n b accs with _ | p
    · rw [hres] at h; exact absurd h (by simp)
    · rw [hres] at h
      rw [drainShopFuel_mono n m b accs p hres hnm]
      simp only [Option.some_bind] at h ⊢
      rcases hw : withdrawAllFuel n shops p.2 with _ | k'
      · rw [hw] at h; exact absurd h (by simp)
      · rw [hw] at h
        rw [ih p.2 n m k' hw hnm]
        exact h

lemma withdrawAllFuel_terminates (shops : List ℚ) : ∀ accs : List ℚ,
    ∃ n, withdrawAllFuel n shops accs = some (withdrawLoop shops accs) := by
  induction shops with
  | nil => intro accs; exact ⟨0, rfl⟩
  | cons b shops ih =>
    intro accs
    obtain ⟨n1, h1⟩ := ih (drainShop b accs).2
    refine ⟨max (drainMeasure b accs + 1) n1, ?_⟩
    have hmax1 := le_max_left (drainMeasure b accs + 1) n1
    rw [withdrawAllFuel, drainShopFuel_eq_drainShop _ b accs (by omega)]
    simp only [Option.some_bind]
    rw [withdrawAllFuel_mono shops (drainShop b accs).2 n1 _ _ h1
        (le_max_right _ _), withdrawLoop]
    simp

/-! ### Lemmas on `PoolPerShop` grouping and per-shop application -/

/-- Amounts of a batch belonging to one shop, in arrival order. -/
def amountsOf (txs : List Transaction) (sid : ShopId) : List ℚ :=
  (txs.filter fun t => decide (t.shop_id = sid)).map Transaction.amount

/-- Keys of an association list. -/
def keysOf (l : List (ShopId × List ℚ)) : List ShopId := l.map Prod.fst

lemma keysOf_nil : keysOf [] = [] := rfl

lemma keysOf_cons (kl : ShopId × List ℚ) (rest : List (ShopId × List ℚ)) :
    keysOf (kl :: rest) = kl.1 :: keysOf rest := rfl

lemma lookupPool_addTx_same (acc : List (ShopId × List ℚ)) (shop : ShopId)
    (a : ℚ) :
    lookupPool (addTx acc shop a) shop = lookupPool acc shop ++ [a] := by
  induction acc with
  | nil => simp [addTx, lookupPool]
  | cons kl rest ih =>
    obtain ⟨k, l⟩ := kl
    by_cases hk : k = shop
    · rw [addTx, if_pos hk, lookupPool, if_pos hk, lookupPool, if_pos hk]
    · rw [addTx, if_neg hk, lookupPool, if_neg hk, lookupPool, if_neg hk, ih]

lemma lookupPool_addTx_other (acc : List (ShopId × List ℚ))
    (shop sid : ShopId) (a : ℚ) (h : shop ≠ sid) :
    lookupPool (addTx acc shop a) sid = lookupPool acc sid := by
  induction acc with
  | nil => simp [addTx, lookupPool, h]
  | cons kl rest ih =>
    obtain ⟨k, l⟩ := kl
    by_cases hk : k = shop
    · have hks : k ≠ sid := by rw [hk]; exact h
      rw [addTx, if_pos hk, lookupPool, if_neg hks, lookupPool, if_neg hks]
    · rw [addTx, if_neg hk, lookupPool, lookupPool, ih]

lemma lookupPool_group (txs : List Transaction) (sid : ShopId) :
    ∀ acc : List (ShopId × List ℚ),
      lookupPool (txs.foldl (fun acc t => addTx acc t.shop_id t.amount) acc)
          sid
        = lookupPool acc sid ++ amountsOf txs sid := by
  induction txs with
  | nil => intro acc; simp [amountsOf]
  | cons t rest ih =>
    intro acc
    rw [List.foldl_cons, ih]
    by_cases ht : t.shop_id = sid
    · rw [ht, lookupPool_addTx_same]
      simp [amountsOf, ht]
    · rw [lookupPool_addTx_other acc t.shop_id sid t.amount ht]
      simp [amountsOf, ht]

lemma mem_keysOf_addTx {acc : List (ShopId × List ℚ)} {shop x : ShopId}
    {a : ℚ} (h : x ∈ keysOf (addTx acc shop a)) :
    x ∈ keysOf acc ∨ x = shop := by
  induction acc with
  | nil =>
    rw [addTx, keysOf_cons] at h
    rcases List.mem_cons.mp h with h1 | h1
    · exact Or.inr h1
    · rw [keysOf_nil] at h1; exact absurd h1 (by simp)
  | cons kl rest ih =>
    obtain ⟨k, l⟩ := kl
    by_cases hk : k = shop
    · rw [addTx, if_pos hk, keysOf_cons] at h
      rw [keysOf_cons]
      exact Or.inl h
    · rw [addTx, if_neg hk, keysOf_cons] at h
      rw [keysOf_cons]
      rcases List.mem_cons.mp h with h1 | h1
      · exact Or.inl (by rw [h1]; exact List.mem_cons_self _ _)
      · rcases ih h1 with h2 | h2
        · exact Or.inl (List.mem_cons_of_mem _ h2)
        · exact Or.inr h2

lemma nodup_keysOf_addTx (acc : List (ShopId × List ℚ)) (shop : ShopId)
    (a : ℚ) (h : (keysOf acc).Nodup) : (keysOf (addTx acc shop a)).Nodup := by
  induction acc with
  | nil => simp [addTx, keysOf]
  | cons kl rest ih =>
    obtain ⟨k, l⟩ := kl
    rw [keysOf_cons] at h
    obtain ⟨hk1, hk2⟩ := List.nodup_cons.mp h
    by_cases hk : k = shop
    · rw [addTx, if_pos hk, keysOf_cons]
      exact List.nodup_cons.mpr ⟨hk1, hk2⟩
    · rw [addTx, if_neg hk, keysOf_cons]
      refine List.nodup_cons.mpr ⟨?_, ih hk2⟩
      intro hmem
      rcases mem_keysOf_addTx hmem with h2 | h2
      · exact hk1 h2
      · exact hk h2

lemma nodup_keysOf_group (txs : List Transaction) :
    ∀ acc, (keysOf acc).Nodup →
      (keysOf (txs.foldl (fun acc t => addTx acc t.shop_id t.amount)
        acc)).Nodup := by
  induction txs with
  | nil => intro acc h; exact h
  | cons t rest ih =>
    intro acc h
    rw [List.foldl_cons]
    exact ih _ (nodup_keysOf_addTx acc t.shop_id t.amount h)

lemma lookupPool_setPool_same (pools : List (ShopId × List ℚ))
    (shop : ShopId) (txs : List ℚ) :
    lookupPool (setPool pools shop txs) shop
      = applyTxs (lookupPool pools shop) txs := by
  induction pools with
  | nil => simp [setPool, lookupPool]
  | cons kl rest ih =>
    obtain ⟨k, l⟩ := kl
    by_cases hk : k = shop
    · rw [setPool, if_pos hk, lookupPool, if_pos hk, lookupPool, if_pos hk]
    · rw [setPool, if_neg hk, lookupPool, if_neg hk, lookupPool, if_neg hk,
        ih]

lemma lookupPool_setPool_other (pools : List (ShopId × List ℚ))
    (shop sid : ShopId) (txs : List ℚ) (h : shop ≠ sid) :
    lookupPool (setPool pools shop txs) sid = lookupPool pools sid := by
  induction pools with
  | nil => simp [setPool, lookupPool, h]
  | cons kl rest ih =>
    obtain ⟨k, l⟩ := kl
    by_cases hk : k = shop
    · have hks : k ≠ sid := by rw [hk]; exact h
      rw [setPool, if_pos hk, lookupPool, if_neg hks, lookupPool, if_neg hks]
    · rw [setPool, if_neg hk, lookupPool, lookupPool, ih]

lemma applyTxs_nil (pool : List ℚ) : applyTxs pool [] = pool := by
  rw [applyTxs, padTo]
  simp [zipAdd]

lemma lookupPool_applyGroups_not_mem (glist : List (ShopId × List ℚ))
    (sid : ShopId) :
    ∀ pools, sid ∉ keysOf glist →
      lookupPool (glist.foldl (fun pools p => setPool pools p.1 p.2) pools)
          sid
        = lookupPool pools sid := by
  induction glist with
  | nil => intro pools _; rfl
  | cons g rest ih =>
    intro pools h
    rw [keysOf_cons] at h
    simp only [List.foldl_cons]
    rw [ih _ (fun hm => h (List.mem_cons_of_mem _ hm)),
      lookupPool_setPool_other _ _ _ _
        (fun he => h (by rw [he]; exact List.mem_cons_self _ _))]

lemma lookupPool_applyGroups (glist : List (ShopId × List ℚ))
    (sid : ShopId) :
    ∀ pools, (keysOf glist).Nodup →
      lookupPool (glist.foldl (fun pools p => setPool pools p.1 p.2) pools)
          sid
        = applyTxs (lookupPool pools sid) (lookupPool glist sid) := by
  induction glist with
  | nil =>
    intro pools _
    rw [List.foldl_nil, lookupPool, applyTxs_nil]
  | cons g rest ih =>
    intro pools hnd
    obtain ⟨k, ktxs⟩ := g
    rw [keysOf_cons] at hnd
    obtain ⟨hnd1, hnd2⟩ := List.nodup_cons.mp hnd
    simp only [List.foldl_cons]
    by_cases hg : k = sid
    · have hsid : sid ∉ keysOf rest := by rw [← hg]; exact hnd1
      rw [lookupPool_applyGroups_not_mem rest sid _ hsid, ← hg,
        lookupPool_setPool_same, lookupPool, if_pos rfl]
    · rw [ih _ hnd2, lookupPool_setPool_other _ _ _ _ hg, lookupPool,
        if_neg hg]

lemma lookupPool_process (s : PoolPerShop) (txs : List Transaction)
    (sid : ShopId) :
    lookupPool (s.process_transactions txs).pools sid
      = applyTxs (lookupPool s.pools sid) (amountsOf txs sid) := by
  have hnd : (keysOf (groupByShop txs)).Nodup := by
    rw [groupByShop]
    exact nodup_keysOf_group txs [] (by rw [keysOf_nil]; exact List.nodup_nil)
  rw [PoolPerShop.process_transactions]
  rw [lookupPool_applyGroups _ _ _ hnd, groupByShop, lookupPool_group txs sid [],
    lookupPool, List.nil_append]

lemma zipAdd_sum (txs : List ℚ) : ∀ pool : List ℚ,
    txs.length ≤ pool.length →
    (zipAdd pool txs).sum = pool.sum + txs.sum := by
  induction txs with
  | nil => intro pool _; simp [zipAdd]
  | cons t ts ih =>
    intro pool h
    cases pool with
    | nil => simp at h
    | cons p ps =>
      rw [zipAdd]
      simp only [List.sum_cons]
      rw [ih ps (by simpa using h)]
      ring

lemma zipAdd_length (txs : List ℚ) : ∀ pool : List ℚ,
    txs.length ≤ pool.length →
    (zipAdd pool txs).length = pool.length := by
  induction txs with
  | nil => intro pool _; simp [zipAdd]
  | cons t ts ih =>
    intro pool h
    cases pool with
    | nil => simp at h
    | cons p ps =>
      rw [zipAdd]
      simp only [List.length_cons]
      rw [ih ps (by simpa using h)]

lemma padTo_length (pool : List ℚ) (n : Nat) :
    (padTo pool n).length = max pool.length n := by
  rw [padTo]
  split <;> simp <;> omega

lemma padTo_sum (pool : List ℚ) (n : Nat) : (padTo pool n).sum = pool.sum := by
  rw [padTo]
  split
  · simp
  · rfl

lemma applyTxs_sum (pool txs : List ℚ) :
    (applyTxs pool txs).sum = pool.sum + txs.sum := by
  rw [applyTxs, zipAdd_sum _ _ (by rw [padTo_length]; omega), padTo_sum]

lemma applyTxs_length (pool txs : List ℚ) :
    (applyTxs pool txs).length = max pool.length txs.length := by
  rw [applyTxs, zipAdd_length _ _ (by rw [padTo_length]; omega), padTo_length]

lemma amountsOf_perm {l1 l2 : List Transaction} (h : l1.Perm l2)
    (sid : ShopId) : (amountsOf l1 sid).Perm (amountsOf l2 sid) :=
  (h.filter _).map _

/-! ### Reachability invariants -/

lemma reachable_inv (s : SinglePool) (h : s.Reachable) :
    s.shop_balances ≠ [] → s.pool ≠ [] := by
  induction h with
  | empty => intro h2; exact absurd rfl h2
  | @process s txs hr hpos ih =>
    cases txs with
    | nil =>
      rw [SinglePool.process_transactions, processGo]
      intro hb
      simpa using ih hb
    | cons t rest => exact fun _ => process_pool_ne_nil s t rest
  | @withdraw s r hr hw ih =>
    rw [SinglePool.withdraw_all] at hw
    split at hw
    · exact absurd hw (by simp)
    · have hr2 : r.2 = s.reset := by
        cases hw
        rfl
      rw [hr2, SinglePool.reset]
      intro h2
      exact absurd rfl h2

lemma reachable_withdraw_isSome (s : SinglePool) (h : s.Reachable) :
    s.withdraw_all.isSome = true := by
  by_cases hg : s.pool = []
      ∧ s.shop_balances.any (fun p => decide (0 < p.2)) = true
  · obtain ⟨hpool, hany⟩ := hg
    have hne : s.shop_balances ≠ [] := by
      intro he
      rw [he] at hany
      simp at hany
    exact absurd hpool (reachable_inv s h hne)
  · rw [SinglePool.withdraw_all, if_neg (by simpa using hg)]
    rfl

lemma reachableW_pos (s : SinglePoolWithSingleAccount) (h : s.Reachable) :
    ∀ p ∈ s.inner.shop_balances, 0 < p.2 := by
  induction h with
  | empty => intro p hp; simp at hp
  | @process s txs hr hpos ih =>
    intro p hp
    rw [SinglePoolWithSingleAccount.process_transactions] at hp
    rw [SinglePool.process_transactions] at hp
    exact processGo_pos _ _ _ _ ih hpos p hp
  | @withdraw s hr ih =>
    intro p hp
    rw [SinglePoolWithSingleAccount.withdraw_all] at hp
    simp [SinglePool.reset] at hp

/-! ### Claim theorems -/

/-- C1: for the `SinglePool` state with exactly one shop whose running
balance is 15 and two accounts with balances 10 and 8, `withdraw_all`
returns exactly 2 settlement transactions and leaves every account balance
at 0; and in general the greedy drain transfers
`min(shop_balance, account_remaining)` per step from the first
not-yet-exhausted account, so one shop's drain removes exactly
`min(shop_balance, accounts total)` from the account pool. -/
theorem spec_c1 :
    SinglePool.withdraw_all ⟨[10, 8], [(0, 15)]⟩ = some (2, ⟨[0, 0], []⟩)
  ∧ ∀ (b : ℚ) (accs : List ℚ), 0 ≤ b → (∀ a ∈ accs, 0 ≤ a) →
      (drainShop b accs).2.sum = accs.sum - min b accs.sum := by
  constructor
  · rw [SinglePool.withdraw_all, if_neg (by simp)]
    norm_num [SinglePool.reset, withdrawLoop, drainShop, drainShopFuel,
      drainMeasure]
  · exact drainShop_sum

theorem spec_c1_witness :
    (0 ≤ (15 : ℚ) ∧ ∀ a ∈ ([10, 8] : List ℚ), 0 ≤ a)
  ∧ (drainShop 15 [10, 8]).2.sum
      = ([10, 8] : List ℚ).sum - min 15 ([10, 8] : List ℚ).sum :=
  ⟨⟨by norm_num, by norm_num⟩,
    spec_c1.2 15 [10, 8] (by norm_num) (by norm_num)⟩

/-- C2: `SinglePool.process_transactions` adds exactly the batch total to
both the pooled account total and the per-shop running-balance total; hence
from a state whose account balances are all zero the account total
afterwards equals the batch total, and equality between the two totals is
preserved. -/
theorem spec_c2 (s : SinglePool) (txs : List Transaction) :
    (s.process_transactions txs).pool_total = s.pool_total + txsTotal txs
  ∧ (s.process_transactions txs).shops_total = s.shops_total + txsTotal txs
  ∧ ((∀ a ∈ s.pool, a = 0) →
      (s.process_transactions txs).pool_total = txsTotal txs)
  ∧ (s.pool_total = s.shops_total →
      (s.process_transactions txs).pool_total
        = (s.process_transactions txs).shops_total) := by
  have h1 : (s.process_transactions txs).pool_total
      = s.pool_total + txsTotal txs := by
    rw [SinglePool.pool_total, SinglePool.pool_total,
      SinglePool.process_transactions, processGo_pool_sum]
    simp
  have h2 : (s.process_transactions txs).shops_total
      = s.shops_total + txsTotal txs := by
    rw [SinglePool.shops_total, SinglePool.shops_total,
      SinglePool.process_transactions, processGo_balances,
      foldl_addShopBalance_sum]
  refine ⟨h1, h2, ?_, ?_⟩
  · intro hz
    have h0 : s.pool_total = 0 := by
      rw [SinglePool.pool_total]
      exact List.sum_eq_zero hz
    rw [h1, h0, zero_add]
  · intro he
    rw [h1, h2, he]

theorem spec_c2_witness :
    (∀ a ∈ (⟨[0, 0], []⟩ : SinglePool).pool, a = 0)
  ∧ (SinglePool.process_transactions ⟨[0, 0], []⟩
        [⟨10, 0⟩, ⟨20, 0⟩, ⟨5, 0⟩, ⟨7, 0⟩, ⟨3, 0⟩]).pool_total
      = txsTotal [⟨10, 0⟩, ⟨20, 0⟩, ⟨5, 0⟩, ⟨7, 0⟩, ⟨3, 0⟩]
  ∧ txsTotal [⟨10, 0⟩, ⟨20, 0⟩, ⟨5, 0⟩, ⟨7, 0⟩, ⟨3, 0⟩] = 45 :=
  ⟨by norm_num, (spec_c2 _ _).2.2.1 (by norm_num), by norm_num [txsTotal]⟩

/-- C3 as stated is false at a concrete input: with the source's deferred
pushes, two simultaneous unit transactions from the empty pool produce two
accounts `[1, 1]`, while the claimed pop-update-push-before-next-transaction
semantics merges them into a single account `[2]`. -/
theorem spec_c3_counterexample :
    (SinglePool.process_transactions ⟨[], []⟩ [⟨1, 0⟩, ⟨1, 0⟩]).pool = [1, 1]
  ∧ (SinglePool.process_transactions_seq ⟨[], []⟩ [⟨1, 0⟩, ⟨1, 0⟩]).pool
      = [2]
  ∧ SinglePool.process_transactions ⟨[], []⟩ [⟨1, 0⟩, ⟨1, 0⟩]
      ≠ SinglePool.process_transactions_seq ⟨[], []⟩ [⟨1, 0⟩, ⟨1, 0⟩] := by
  have h1 : (SinglePool.process_transactions ⟨[], []⟩
      [⟨1, 0⟩, ⟨1, 0⟩]).pool = [1, 1] := by
    norm_num [SinglePool.process_transactions, processGo, addShopBalance]
  have h2 : (SinglePool.process_transactions_seq ⟨[], []⟩
      [⟨1, 0⟩, ⟨1, 0⟩]).pool = [2] := by
    norm_num [SinglePool.process_transactions_seq, popMin1, addShopBalance]
  refine ⟨h1, h2, fun he => ?_⟩
  rw [he, h2] at h1
  exact absurd h1 (by simp)

/-- C3 amended: each transaction pops the smallest account (or a fresh
zero-balance account when the heap is empty) and adds its amount, but the
updated accounts are pushed back only after the whole batch
(`self.pool.extend`), so a later transaction of the same batch never lands
on an account updated by an earlier one: from the empty pool every
transaction gets its own account holding exactly its amount.  Each amount is
still added to the owning shop's running balance. -/
theorem spec_c3 (txs : List Transaction) :
    (SinglePool.process_transactions ⟨[], []⟩ txs).pool
      = txs.map Transaction.amount
  ∧ (SinglePool.process_transactions ⟨[], []⟩ txs).shops_total
      = txsTotal txs := by
  constructor
  · rw [SinglePool.process_transactions]
    have hgen : ∀ (u : List Transaction) (balances : List (ShopId × ℚ))
        (updated : List ℚ),
        (processGo balances [] updated u).pool
          = updated ++ u.map (fun t => t.amount + 0) := by
      intro u
      induction u with
      | nil => intro balances updated; simp [processGo]
      | cons t rest ih =>
        intro balances updated
        rw [processGo, ih]
        simp
    rw [hgen]
    simp
  · rw [SinglePool.shops_total, SinglePool.process_transactions,
      processGo_balances, foldl_addShopBalance_sum]
    simp [txsTotal]

lemma withdraw_all_pools (s : PoolPerShop) :
    s.withdraw_all.2.pools
      = s.pools.map fun p => (p.1, p.2.map fun _ => (0 : ℚ)) := rfl

lemma pools_fill_total (s : PoolPerShop) :
    s.withdraw_all.2.total_accounts = s.total_accounts := by
  rw [PoolPerShop.total_accounts, PoolPerShop.total_accounts,
    withdraw_all_pools, List.map_map]
  congr 1
  congr 1
  funext p
  simp [Function.comp]

/-- C4 as stated is false at a concrete reachable input: after one
withdrawal the single account's balance is zero, yet a second
`withdraw_all` still returns the total account count 1 rather than the
number 0 of accounts with non-zero balance. -/
theorem spec_c4_counterexample :
    ((((⟨[]⟩ : PoolPerShop).process_transactions
        [⟨5, 0⟩]).withdraw_all.2).withdraw_all.1 = 1)
  ∧ (((⟨[]⟩ : PoolPerShop).process_transactions
        [⟨5, 0⟩]).withdraw_all.2).nonzero_accounts = 0 := by
  constructor <;>
    norm_num [PoolPerShop.process_transactions, groupByShop, addTx, setPool,
      applyTxs, padTo, zipAdd, PoolPerShop.withdraw_all,
      PoolPerShop.total_accounts, PoolPerShop.nonzero_accounts]

/-- C4 amended: for every `PoolPerShop` state, `withdraw_all` zeroes every
account balance, keeps the number of accounts and the set of shop entries
unchanged, and returns the total number of accounts at the moment of the
call — counting zero-balance account slots as settlements too. -/
theorem spec_c4 (s : PoolPerShop) :
    s.withdraw_all.1 = s.total_accounts
  ∧ s.withdraw_all.2.total_accounts = s.total_accounts
  ∧ (∀ p ∈ s.withdraw_all.2.pools, ∀ a ∈ p.2, a = 0)
  ∧ s.withdraw_all.2.pools.map Prod.fst = s.pools.map Prod.fst := by
  refine ⟨?_, ?_, ?_, ?_⟩
  · exact (rfl : s.withdraw_all.1 = s.withdraw_all.2.total_accounts).trans
      (pools_fill_total s)
  · exact pools_fill_total s
  · intro p hp a ha
    simp only [PoolPerShop.withdraw_all, List.mem_map] at hp
    obtain ⟨q, hq, hpq⟩ := hp
    rw [← hpq] at ha
    obtain ⟨x, hx, h0⟩ := List.mem_map.mp ha
    exact h0.symm
  · simp [PoolPerShop.withdraw_all, List.map_map, Function.comp]

/-- C5: on every reachable `SinglePoolWithSingleAccount` state,
`withdraw_all` returns (current number of accounts) + (number of shops with
a nonzero running balance), independent of the balance magnitudes; afterwards
all accounts have balance zero, the account count is unchanged, and the shop
balances are cleared. -/
theorem spec_c5 (s : SinglePoolWithSingleAccount) (h : s.Reachable) :
    s.withdraw_all.1 = s.total_accounts
        + (s.inner.shop_balances.countP fun p => decide (p.2 ≠ 0))
  ∧ s.withdraw_all.2.inner.pool.length = s.inner.pool.length
  ∧ (∀ a ∈ s.withdraw_all.2.inner.pool, a = 0)
  ∧ s.withdraw_all.2.inner.shop_balances = [] := by
  have hpos := reachableW_pos s h
  have hcnt : (s.inner.shop_balances.countP fun p => decide (p.2 ≠ 0))
      = s.inner.shop_balances.length := by
    rw [List.countP_eq_length]
    intro p hp
    simp [ne_of_gt (hpos p hp)]
  refine ⟨?_, ?_, ?_, ?_⟩
  · rw [hcnt]; rfl
  · simp [SinglePoolWithSingleAccount.withdraw_all, SinglePool.reset]
  · intro a ha
    have hpool : s.withdraw_all.2.inner.pool
        = s.inner.pool.map fun _ => (0 : ℚ) := rfl
    rw [hpool] at ha
    obtain ⟨x, hx, h0⟩ := List.mem_map.mp ha
    exact h0.symm
  · rfl

theorem spec_c5_witness :
    (SinglePoolWithSingleAccount.process_transactions ⟨⟨[], []⟩⟩
        [⟨2, 0⟩]).withdraw_all.1
      = (SinglePoolWithSingleAccount.process_transactions ⟨⟨[], []⟩⟩
          [⟨2, 0⟩]).total_accounts
        + ((SinglePoolWithSingleAccount.process_transactions ⟨⟨[], []⟩⟩
            [⟨2, 0⟩]).inner.shop_balances.countP fun p => decide (p.2 ≠ 0))
  ∧ (SinglePoolWithSingleAccount.process_transactions ⟨⟨[], []⟩⟩
        [⟨2, 0⟩]).withdraw_all.1 = 2 :=
  ⟨(spec_c5 _ (SinglePoolWithSingleAccount.Reachable.process
      SinglePoolWithSingleAccount.Reachable.empty (by norm_num))).1,
    by norm_num [SinglePoolWithSingleAccount.process_transactions,
      SinglePool.process_transactions, processGo, addShopBalance,
      SinglePoolWithSingleAccount.withdraw_all, SinglePool.total_accounts]⟩

/-- C6: the drain loop of `SinglePool::withdraw_all` terminates for every
state with non-negative account balances and shop balances — in particular
when the pooled funds cannot cover the shop balances, stopping via the
`break` on exhausted accounts: the fueled transcription of the loop reaches
the loop's result with some finite fuel. -/
theorem spec_c6 (shops accs : List ℚ) (h1 : ∀ b ∈ shops, 0 ≤ b)
    (h2 : ∀ a ∈ accs, 0 ≤ a) :
    ∃ n, withdrawAllFuel n shops accs = some (withdrawLoop shops accs) :=
  withdrawAllFuel_terminates shops accs

theorem spec_c6_witness :
    ((∀ b ∈ ([5] : List ℚ), 0 ≤ b) ∧ (∀ a ∈ ([2] : List ℚ), 0 ≤ a)
      ∧ ([2] : List ℚ).sum < ([5] : List ℚ).sum)
  ∧ ∃ n, withdrawAllFuel n [5] [2] = some (withdrawLoop [5] [2]) :=
  ⟨⟨by norm_num, by norm_num, by norm_num⟩,
    spec_c6 [5] [2] (by norm_num) (by norm_num)⟩

/-- C7: the withdrawal-transaction count reported by
`SinglePool::withdraw_all` depends on the enumeration order of the
`shop_balances` hash map: the same map content `{shop 0 ↦ 10, shop 1 ↦ 8}`
over the same accounts `[10, 8]` settles in 2 transactions in one
enumeration order and in 3 in the other.  Since `std::collections::HashMap`
iteration order is randomized per process, the final report is not a
function of the seed alone. -/
theorem spec_c7 :
    (SinglePool.withdraw_all ⟨[10, 8], [(0, 10), (1, 8)]⟩).map Prod.fst
      = some 2
  ∧ (SinglePool.withdraw_all ⟨[10, 8], [(1, 8), (0, 10)]⟩).map Prod.fst
      = some 3 := by
  constructor <;>
  · rw [SinglePool.withdraw_all, if_neg (by simp)]
    norm_num [withdrawLoop, drainShop, drainShopFuel, drainMeasure]

/-- C8 as stated is false at a concrete input: with configured
`sale_multiplier = 0`, one sale drawn on day 0 drops that day's multiplier
to 0, strictly below the base table entry 1. -/
theorem spec_c8_counterexample :
    ¬ ((List.replicate 365 1).getD 0 0
        ≤ (applySaleDays 0 (List.replicate 365 1) [0]).getD 0 0) := by
  decide

lemma listModify_getD_le (m : ℕ) (hm : 1 ≤ m) (base : List ℕ) :
    ∀ (i d : ℕ),
      base.getD d 0 ≤ (listModify (fun x => x * m) base i).getD d 0 := by
  induction base with
  | nil => intro i d; simp [listModify]
  | cons x rest ih =>
    intro i d
    cases i with
    | zero =>
      cases d with
      | zero =>
        simp only [listModify, List.getD_cons_zero]
        calc x = x * 1 := by ring
          _ ≤ x * m := Nat.mul_le_mul_left x hm
      | succ d => simp [listModify]
    | succ i =>
      cases d with
      | zero => simp [listModify]
      | succ d =>
        simp only [listModify, List.getD_cons_succ]
        exact ih i d

/-- C8 amended: for every base table, every choice of sale-day draws and
every day index, the generated daily multiplier is at least the base entry
whenever the configured `sale_multiplier` is at least 1 (for
`sale_multiplier = 0` the sale days drop below the base table). -/
theorem spec_c8 (m : ℕ) (hm : 1 ≤ m) (base draws : List ℕ) (d : ℕ) :
    base.getD d 0 ≤ (applySaleDays m base draws).getD d 0 := by
  induction draws generalizing base with
  | nil => rw [applySaleDays]
  | cons r rest ih =>
    rw [applySaleDays]
    exact le_trans (listModify_getD_le m hm base (r % 365) d) (ih _)

theorem spec_c8_witness :
    1 ≤ 2
  ∧ ([3, 1] : List ℕ).getD 0 0
      ≤ (applySaleDays 2 [3, 1] [0, 366]).getD 0 0 :=
  ⟨by decide, spec_c8 2 (by decide) [3, 1] [0, 366] 0⟩

/-- C9 as stated is false at a concrete input: permuting a batch changes
which account of the shop receives which amount, so the resulting account
balances differ (`[3, 3]` against `[4, 2]`). -/
theorem spec_c9_counterexample :
    ([⟨2, 0⟩, ⟨3, 0⟩] : List Transaction).Perm [⟨3, 0⟩, ⟨2, 0⟩]
  ∧ lookupPool (PoolPerShop.process_transactions ⟨[(0, [1, 0])]⟩
      [⟨2, 0⟩, ⟨3, 0⟩]).pools 0 = [3, 3]
  ∧ lookupPool (PoolPerShop.process_transactions ⟨[(0, [1, 0])]⟩
      [⟨3, 0⟩, ⟨2, 0⟩]).pools 0 = [4, 2]
  ∧ PoolPerShop.process_transactions ⟨[(0, [1, 0])]⟩ [⟨2, 0⟩, ⟨3, 0⟩]
      ≠ PoolPerShop.process_transactions ⟨[(0, [1, 0])]⟩ [⟨3, 0⟩, ⟨2, 0⟩] := by
  have hA : lookupPool (PoolPerShop.process_transactions ⟨[(0, [1, 0])]⟩
      [⟨2, 0⟩, ⟨3, 0⟩]).pools 0 = [3, 3] := by
    norm_num [PoolPerShop.process_transactions, groupByShop, addTx, setPool,
      applyTxs, padTo, zipAdd, lookupPool]
  have hB : lookupPool (PoolPerShop.process_transactions ⟨[(0, [1, 0])]⟩
      [⟨3, 0⟩, ⟨2, 0⟩]).pools 0 = [4, 2] := by
    norm_num [PoolPerShop.process_transactions, groupByShop, addTx, setPool,
      applyTxs, padTo, zipAdd, lookupPool]
  refine ⟨List.Perm.swap _ _ _, hA, hB, fun he => ?_⟩
  rw [he, hB] at hA
  exact absurd hA (by norm_num)

/-- C9 amended: permuting a batch leaves every shop's account count and
total balance unchanged under `PoolPerShop.process_transactions`, though
which account holds which amount may change. -/
theorem spec_c9 (s : PoolPerShop) (l1 l2 : List Transaction)
    (hperm : l1.Perm l2) (sid : ShopId) :
    (lookupPool (s.process_transactions l1).pools sid).sum
      = (lookupPool (s.process_transactions l2).pools sid).sum
  ∧ (lookupPool (s.process_transactions l1).pools sid).length
      = (lookupPool (s.process_transactions l2).pools sid).length := by
  have hp := amountsOf_perm hperm sid
  constructor
  · rw [lookupPool_process, lookupPool_process, applyTxs_sum, applyTxs_sum,
      hp.sum_eq]
  · rw [lookupPool_process, lookupPool_process, applyTxs_length,
      applyTxs_length, hp.length_eq]

theorem spec_c9_witness :
    ([⟨2, 0⟩, ⟨3, 0⟩] : List Transaction).Perm [⟨3, 0⟩, ⟨2, 0⟩]
  ∧ (lookupPool (PoolPerShop.process_transactions ⟨[(0, [1, 0])]⟩
        [⟨2, 0⟩, ⟨3, 0⟩]).pools 0).sum
      = (lookupPool (PoolPerShop.process_transactions ⟨[(0, [1, 0])]⟩
          [⟨3, 0⟩, ⟨2, 0⟩]).pools 0).sum :=
  ⟨List.Perm.swap _ _ _,
    (spec_c9 ⟨[(0, [1, 0])]⟩ _ _ (List.Perm.swap _ _ _) 0).1⟩

/-- C10: on every `SinglePool` state reachable from the empty pool through
`process_transactions` with positive amounts and `withdraw_all`, a non-empty
shop-balance map implies a non-empty account pool, so the unguarded first
`accounts[current]` read of `withdraw_all` is in bounds and `withdraw_all`
does not panic. -/
theorem spec_c10 (s : SinglePool) (h : s.Reachable) :
    (s.shop_balances ≠ [] → s.pool ≠ [])
  ∧ s.withdraw_all.isSome = true :=
  ⟨reachable_inv s h, reachable_withdraw_isSome s h⟩

theorem spec_c10_witness :
    ((SinglePool.process_transactions ⟨[], []⟩ [⟨1, 0⟩]).shop_balances ≠ []
        → (SinglePool.process_transactions ⟨[], []⟩ [⟨1, 0⟩]).pool ≠ [])
  ∧ (SinglePool.process_transactions ⟨[], []⟩
      [⟨1, 0⟩]).withdraw_all.isSome = true :=
  spec_c10 _ (SinglePool.Reachable.process SinglePool.Reachable.empty
    (by norm_num))

end HexSim
